import Mathlib

/-!
Verification of the voice-typing dictation core: a shallow embedding of the
transcript buffer (`internal/transcription.go`), the Deepgram message handler
(`internal/deepgram.go`) and the text injector, together with proofs of the
spec's testable properties.

Go strings are modelled as lists of characters (`Str`); Go byte lengths
coincide with character counts on the ASCII transcripts involved.
-/

/-- Strings of the Go source, modelled as lists of characters. -/
abbrev Str : Type := List Char

/-- Whitespace test used by `strings.Fields` / `strings.TrimSpace`
(the ASCII whitespace classes of Go `unicode.IsSpace` that occur here). -/
def isWS (c : Char) : Bool := c = ' ' || c = '\t' || c = '\n' || c = '\r'

/-- Go `strings.Contains(text, pat)`: `pat` occurs as a substring of `text`. -/
def strContains : Str → Str → Bool
  | [], pat => pat.isPrefixOf []
  | c :: rest, pat => pat.isPrefixOf (c :: rest) || strContains rest pat

/-- Go `strings.ToLower`, ASCII case mapping. -/
def toLowerStr (s : Str) : Str := s.map Char.toLower

/-- Go `strings.TrimSpace`: drop whitespace from both ends. -/
def trimStr (s : Str) : Str := ((s.dropWhile isWS).reverse.dropWhile isWS).reverse

/-- Scanner for `fields`; `acc` holds the current word, reversed. -/
def fieldsAux : Str → Str → List Str
  | [], acc => if acc = [] then [] else [acc.reverse]
  | c :: cs, acc =>
    if isWS c then
      if acc = [] then fieldsAux cs [] else acc.reverse :: fieldsAux cs []
    else fieldsAux cs (c :: acc)

/-- Go `strings.Fields`: split around runs of whitespace. -/
def fields (s : Str) : List Str := fieldsAux s []

/-- Go `strings.Join(words, " ")`. -/
def joinSpace : List Str → Str
  | [] => []
  | [w] => w
  | w :: rest => w ++ ' ' :: joinSpace rest

/-- The line-break marker phrase. -/
def nlStr : Str := "\n".data

/-- The paragraph-break marker phrase. -/
def paraStr : Str := "\n\n".data

def kwUndoThat : Str := "undo that".data

def kwUndoWord : Str := "undo word".data

def kwUndoLast : Str := "undo last".data

def kwWord : Str := "word".data

def kwUndoLastSp : Str := "undo last ".data

def kwSpWord : Str := " word".data

def newlineKws : List Str := ["newline".data, "new line".data]

def paraKws : List Str := ["next para".data, "new para".data, "next paragraph".data, "new paragraph".data]

def stopKws : List Str := ["end voice".data, "end recording".data, "stop recording".data, "stop voice".data]

/-- Go `containsKeywords`. -/
def containsKeywords (text : Str) (kws : List Str) : Bool :=
  kws.any (fun k => strContains text k)

/-- Go `isUndoWordsCommand`. -/
def isUndoWordsCommand (s : Str) : Bool :=
  strContains s kwUndoWord || (strContains s kwUndoLast && strContains s kwWord)

/-- Value of a digit run, as Go `strconv.Atoi` on the regexp capture. -/
def digitsToNat (ds : Str) : Nat := ds.foldl (fun a c => a * 10 + (c.toNat - 48)) 0

/-- One attempt of the regexp `undo last (\d+) word` anchored at the front of
`cs`; the digit run is maximal, as with a greedy `\d+`. -/
def matchUndoAt (cs : Str) : Option Nat :=
  if kwUndoLastSp.isPrefixOf cs then
    let rest := cs.drop kwUndoLastSp.length
    let digits := rest.takeWhile Char.isDigit
    if digits ≠ [] ∧ kwSpWord.isPrefixOf (rest.drop digits.length) then
      some (digitsToNat digits)
    else none
  else none

/-- Leftmost match of the regexp `undo last (\d+) word`
(Go `FindStringSubmatch`). -/
def scanUndoLast : Str → Option Nat
  | [] => none
  | c :: rest =>
    match matchUndoAt (c :: rest) with
    | some n => some n
    | none => scanUndoLast rest

def wordNumbers : List (Str × Nat) :=
  [("one".data, 1), ("two".data, 2), ("three".data, 3), ("four".data, 4), ("five".data, 5),
   ("six".data, 6), ("seven".data, 7), ("eight".data, 8), ("nine".data, 9), ("ten".data, 10)]

/-- Go `extractWordCountFromUndo`. Go iterates its written-number map in
unspecified order; this embedding fixes the order one..ten (at most one entry
matches the transcripts considered). -/
def extractWordCountFromUndo (s : Str) : Nat :=
  if strContains s kwUndoWord && !(strContains s kwUndoLast) then 1
  else
    match scanUndoLast s with
    | some n => n
    | none =>
      match wordNumbers.find? (fun p => strContains s (kwUndoLastSp ++ p.1 ++ kwSpWord)) with
      | some p => p.2
      | none => 1

/-- A stored phrase is one of the two break markers. -/
def isBreak (p : Str) : Bool := decide (p = nlStr) || decide (p = paraStr)

/-- Go `TranscriptionStack` (the `textInjector` field is modelled by the
instruction lists the operations return). -/
structure TranscriptionStack where
  phrases : List Str
  concatenated : Str
  lastSentence : Str
deriving DecidableEq, Repr

/-- Go `NewTranscriptionStack`. -/
def emptyStack : TranscriptionStack :=
  { phrases := [], concatenated := [], lastSentence := [] }

/-- Calls made to the Go `TextInjector` by the stack operations. -/
inductive Instr where
  | typeText (s : Str)
  | typeNewline
  | typeParagraphBreak
  | backSpaceKey
  | backspaces (n : Nat)
deriving DecidableEq, Repr

/-- Go `lastWasLineBreak`. -/
def lastWasLineBreak (ts : TranscriptionStack) : Bool :=
  match ts.phrases.getLast? with
  | none => false
  | some p => isBreak p

/-- Go `rebuildConcatenated`, as a function of the phrase list. -/
def rebuildConcatenated (ps : List Str) : Str :=
  (ps.filter (fun p => !isBreak p)).flatten

/-- Go `handleUndoCommand`; instructions are emitted only when
`realTimeTyping` is set. -/
def handleUndoCommand (rt : Bool) (ts : TranscriptionStack) :
    TranscriptionStack × List Instr :=
  match ts.phrases.getLast? with
  | none => (ts, [])
  | some removed =>
    let ps := ts.phrases.dropLast
    let instrs : List Instr :=
      if removed = nlStr then [Instr.backSpaceKey]
      else if removed = paraStr then [Instr.backSpaceKey, Instr.backSpaceKey]
      else [Instr.backspaces removed.length]
    ({ phrases := ps, concatenated := rebuildConcatenated ps,
       lastSentence := ts.lastSentence },
     if rt then instrs else [])

/-- Go `strings.HasPrefix(s, " ")`: the first character is a space. -/
def spaceLed (s : Str) : Bool := decide (s.head? = some ' ')

/-- Replacement for a partially-consumed phrase in `handleUndoWordsCommand`:
the first `m` words re-joined with single spaces, with a leading space kept
when the original phrase had one. -/
def remainingWordsOf (p : Str) (m : Nat) : Str :=
  let np := joinSpace ((fields (trimStr p)).take m)
  if spaceLed p && !(spaceLed np) then ' ' :: np else np

/-- The loop of Go `handleUndoWordsCommand`, acting on the reversed phrase
list; returns the reversed surviving phrases and the accumulated number of
characters to backspace. -/
def undoWordsGo (wordCount : Nat) : List Str → Nat → Nat → List Str × Nat
  | [], _, chars => ([], chars)
  | p :: rest, wordsRemoved, chars =>
    if wordCount ≤ wordsRemoved then (p :: rest, chars)
    else if isBreak p then undoWordsGo wordCount rest wordsRemoved chars
    else
      let ws := fields (trimStr p)
      let wordsToRemove := wordCount - wordsRemoved
      if ws.length ≤ wordsToRemove then
        undoWordsGo wordCount rest (wordsRemoved + ws.length) (chars + p.length)
      else
        if (ws.take (ws.length - wordsToRemove)).length > 0 then
          let np := remainingWordsOf p (ws.length - wordsToRemove)
          (np :: rest, chars + (p.length - np.length))
        else
          (rest, chars + p.length)

/-- Go `handleUndoWordsCommand`. -/
def handleUndoWordsCommand (wordCount : Nat) (rt : Bool) (ts : TranscriptionStack) :
    TranscriptionStack × List Instr :=
  if ts.phrases = [] then (ts, [])
  else
    let r := undoWordsGo wordCount ts.phrases.reverse 0 0
    let ps := r.1.reverse
    ({ phrases := ps, concatenated := rebuildConcatenated ps,
       lastSentence := ts.lastSentence },
     if rt then [Instr.backspaces r.2] else [])

/-- Outcome of Go `processVoiceCommands`: the undo branches mutate the stack
and return nil (tagged here), the stop branch returns nil with no mutation,
otherwise the processed phrase pointer. -/
inductive PVCResult where
  | undoThatCmd
  | undoWordsCmd (n : Nat)
  | stopCmd
  | phrase (s : Str)
deriving DecidableEq, Repr

/-- Go `processVoiceCommands` (decision structure). -/
def processVoiceCommands (sentence : Str) : PVCResult :=
  let lower := toLowerStr (trimStr sentence)
  if containsKeywords lower [kwUndoThat] then .undoThatCmd
  else if isUndoWordsCommand lower then .undoWordsCmd (extractWordCountFromUndo lower)
  else if containsKeywords lower newlineKws then .phrase nlStr
  else if containsKeywords lower paraKws then .phrase paraStr
  else if containsKeywords lower stopKws then .stopCmd
  else .phrase sentence

/-- Go `AddPhrase`: process voice commands, then either perform the command,
append a break marker, or append spaced text. Returns the new stack and the
TextInjector calls made (none when `realTimeTyping` is off). -/
def addPhrase (phrase : Str) (rt : Bool) (ts : TranscriptionStack) :
    TranscriptionStack × List Instr :=
  match processVoiceCommands phrase with
  | .undoThatCmd => handleUndoCommand rt ts
  | .undoWordsCmd n => handleUndoWordsCommand n rt ts
  | .stopCmd => (ts, [])
  | .phrase p =>
    if p = nlStr then
      ({ ts with phrases := ts.phrases ++ [p] },
       if rt then [Instr.typeNewline] else [])
    else if p = paraStr then
      ({ ts with phrases := ts.phrases ++ [p] },
       if rt then [Instr.typeParagraphBreak] else [])
    else
      let tws := if ts.phrases.length > 0 && !(lastWasLineBreak ts) then ' ' :: p else p
      ({ phrases := ts.phrases ++ [tws], concatenated := ts.concatenated ++ tws,
         lastSentence := p },
       if rt then [Instr.typeText tws] else [])

/-- State of Go `DeepgramService` relevant to transcript handling. -/
structure DGState where
  stack : TranscriptionStack
  stopRequested : Bool
  realTimeTyping : Bool
deriving DecidableEq, Repr

/-- Go `isStopCommand`. -/
def isStopCommand (t : Str) : Bool :=
  containsKeywords (toLowerStr (trimStr t)) stopKws

/-- Go `DeepgramCallback.Message` for one transcript event. -/
def dgMessage (transcript : Str) (isFinal : Bool) (s : DGState) : DGState × List Instr :=
  let t := trimStr transcript
  if t ≠ [] ∧ isFinal = true then
    if isStopCommand t then ({ s with stopRequested := true }, [])
    else
      let r := addPhrase t s.realTimeTyping s.stack
      ({ s with stack := r.1 }, r.2)
  else (s, [])

/-- n single backspace keystrokes, as Go `TypeBackspaces`. -/
def backspacesApply : Nat → Str → Str
  | 0, s => s
  | n + 1, s => backspacesApply n s.dropLast

/-- Effect of one TextInjector call on the focused window's text
(Shift+Return produces a newline; BackSpace deletes one character). -/
def applyInstr (screen : Str) : Instr → Str
  | .typeText s => screen ++ s
  | .typeNewline => screen ++ nlStr
  | .typeParagraphBreak => screen ++ paraStr
  | .backSpaceKey => screen.dropLast
  | .backspaces n => backspacesApply n screen

def applyInstrs (screen : Str) (l : List Instr) : Str := l.foldl applyInstr screen

def initDG (rt : Bool) : DGState :=
  { stack := emptyStack, stopRequested := false, realTimeTyping := rt }

/-- Run a stream of finalized transcripts through the Deepgram message
handler, tracking the injected on-screen text. -/
def runStream : List Str → DGState → Str → DGState × Str
  | [], s, screen => (s, screen)
  | t :: rest, s, screen =>
    let r := dgMessage t true s
    runStream rest r.1 (applyInstrs screen r.2)

/-- The text the stored phrase sequence represents on screen (all stored
entries joined, break markers included). -/
def renderStack (ts : TranscriptionStack) : Str := ts.phrases.flatten

/-- The buffer invariant claimed by the spec: the derived concatenated string
is the join of all non-break stored entries. -/
def stackInvariant (ts : TranscriptionStack) : Prop :=
  ts.concatenated = rebuildConcatenated ts.phrases

instance (ts : TranscriptionStack) : Decidable (stackInvariant ts) := by
  unfold stackInvariant
  infer_instance

/-- Fold a sequence of `AddPhrase` operations (transcript, realTimeTyping)
from the empty stack. -/
def runOps (ops : List (Str × Bool)) : TranscriptionStack :=
  ops.foldl (fun ts op => (addPhrase op.1 op.2 ts).1) emptyStack

/-- Words in one stored phrase, as counted by the source
(`strings.Fields(strings.TrimSpace(p))`); break markers count zero. -/
def wordCountOf (p : Str) : Nat := (fields (trimStr p)).length

def totalWords (ps : List Str) : Nat := (ps.map wordCountOf).sum

def xdotool : Str := "xdotool".data

def ydotool : Str := "ydotool".data

def wtypeTool : Str := "wtype".data

def wayland : Str := "wayland".data

def x11 : Str := "x11".data

def ctrlKey : Str := "ctrl".data

def vKey : Str := "v".data

def shiftKey : Str := "shift".data

def returnKey : Str := "Return".data

def backSpaceName : Str := "BackSpace".data

/-- External-world outcomes for one `TypeText` call: whether invoking a given
typing tool succeeds, and whether clipboard writes succeed. -/
structure InjEnv where
  runOk : Str → Bool
  clipWriteOk : Bool

/-- Go `TextInjector` state (the `availableTools` map is the startup probe
result). -/
structure TextInjector where
  displayServer : Str
  silentMode : Bool
  availableTools : Str → Bool

/-- One observable external action of the injector. -/
inductive InjAct where
  | typeCmd (tool : Str) (text : Str)
  | keyCmd (tool : Str) (keys : List Str)
  | clipWrite (s : Str)
deriving DecidableEq, Repr

/-- Tool preference order in Go `tryDirectTyping`. -/
def directToolOrder (ds : Str) : List Str :=
  if ds = wayland then [wtypeTool, ydotool, xdotool] else [xdotool, wtypeTool, ydotool]

/-- Tool preference order in Go `TypeKeyCombo`. -/
def comboToolOrder (ds : Str) : List Str :=
  if ds = wayland then [ydotool, wtypeTool, xdotool] else [xdotool, ydotool, wtypeTool]

/-- Loop of Go `tryDirectTyping`: first available tool whose run succeeds
wins. Returns the success flag and the tool invocations performed. -/
def goDirect (env : InjEnv) (text : Str) (avail : Str → Bool) :
    List Str → Bool × List InjAct
  | [] => (false, [])
  | t :: rest =>
    if avail t then
      if env.runOk t then (true, [InjAct.typeCmd t text])
      else
        let r := goDirect env text avail rest
        (r.1, InjAct.typeCmd t text :: r.2)
    else goDirect env text avail rest

/-- Go `tryDirectTyping`. -/
def tryDirectTyping (env : InjEnv) (ti : TextInjector) (text : Str) :
    Bool × List InjAct :=
  goDirect env text ti.availableTools (directToolOrder ti.displayServer)

/-- Go `executeKeyCombo`: xdotool and ydotool always build a command; wtype
only for a single mapped key (BackSpace, Return, shift) or the special
shift+Return pair. Key-name remapping does not affect success here. -/
def executeKeyCombo (env : InjEnv) (tool : Str) (keys : List Str) :
    Bool × List InjAct :=
  let buildable :=
    if tool = wtypeTool then
      match keys with
      | [k] => decide (k = backSpaceName) || decide (k = returnKey) || decide (k = shiftKey)
      | [a, b] => decide (a = shiftKey) && decide (b = returnKey)
      | _ => false
    else true
  if buildable then (env.runOk tool, [InjAct.keyCmd tool keys]) else (false, [])

/-- Loop of Go `TypeKeyCombo` over the tool preference order. -/
def goCombo (env : InjEnv) (keys : List Str) (avail : Str → Bool) :
    List Str → Bool × List InjAct
  | [] => (false, [])
  | t :: rest =>
    if avail t then
      let r := executeKeyCombo env t keys
      if r.1 then r
      else
        let r2 := goCombo env keys avail rest
        (r2.1, r.2 ++ r2.2)
    else goCombo env keys avail rest

/-- Go `TypeKeyCombo`. -/
def typeKeyCombo (env : InjEnv) (ti : TextInjector) (keys : List Str) :
    Bool × List InjAct :=
  goCombo env keys ti.availableTools (comboToolOrder ti.displayServer)

/-- Result of a clipboard round-trip or a `TypeText` call: success flag, the
clipboard content afterwards, and the external actions performed. -/
structure InjOutcome where
  ok : Bool
  clipboard : Str
  acts : List InjAct
deriving DecidableEq, Repr

/-- Go `tryClipboardPaste`: snapshot the clipboard, write the text to it,
paste via Ctrl+V, then restore the snapshot only when it was non-empty. -/
def tryClipboardPaste (env : InjEnv) (ti : TextInjector) (text : Str) (clip : Str) :
    InjOutcome :=
  let originalClip := clip
  if !env.clipWriteOk then
    { ok := false, clipboard := clip, acts := [InjAct.clipWrite text] }
  else
    let paste := typeKeyCombo env ti [ctrlKey, vKey]
    let clip2 := if originalClip ≠ [] then originalClip else text
    let restoreActs := if originalClip ≠ [] then [InjAct.clipWrite originalClip] else []
    { ok := paste.1, clipboard := clip2,
      acts := InjAct.clipWrite text :: paste.2 ++ restoreActs }

/-- Go `TypeText`: direct typing, then clipboard fallback, else silent mode. -/
def typeText (env : InjEnv) (ti : TextInjector) (text : Str) (clip : Str) :
    TextInjector × InjOutcome :=
  if text = [] then (ti, { ok := true, clipboard := clip, acts := [] })
  else
    let d := tryDirectTyping env ti text
    if d.1 then (ti, { ok := true, clipboard := clip, acts := d.2 })
    else
      let c := tryClipboardPaste env ti text clip
      if c.ok then (ti, { ok := true, clipboard := c.clipboard, acts := d.2 ++ c.acts })
      else
        ({ ti with silentMode := true },
         { ok := false, clipboard := c.clipboard, acts := d.2 ++ c.acts })

/-- An injector that probed no available tools at startup. -/
def tiNoTools : TextInjector :=
  { displayServer := x11, silentMode := false, availableTools := fun _ => false }

/-- An injector on X11 with only xdotool available. -/
def tiXdoOnly : TextInjector :=
  { displayServer := x11, silentMode := false, availableTools := fun t => t == xdotool }

/-- An environment where every tool invocation fails but clipboard writes
succeed. -/
def envAllFail : InjEnv := { runOk := fun _ => false, clipWriteOk := true }

/-- A concrete one-phrase stack used as witness input. -/
def helloStack : TranscriptionStack :=
  { phrases := [("hello").data], concatenated := ("hello").data,
    lastSentence := ("hello").data }

/-- A concrete deepgram state used as witness input. -/
def helloDG : DGState :=
  { stack := helloStack, stopRequested := false, realTimeTyping := true }

/-- A concrete three-phrase stack (text, break, text) used as witness input. -/
def c5Stack : TranscriptionStack :=
  { phrases := [("hello world").data, nlStr, ("this is a test").data],
    concatenated := ("hello worldthis is a test").data,
    lastSentence := ("this is a test").data }

theorem nlStr_eq : nlStr = ['\n'] := rfl

theorem paraStr_eq : paraStr = ['\n', '\n'] := rfl

theorem isBreak_nl : isBreak nlStr = true := by decide

theorem isBreak_para : isBreak paraStr = true := by decide

theorem isBreak_eq_false_of_ne (p : Str) (h1 : p ≠ nlStr) (h2 : p ≠ paraStr) :
    isBreak p = false := by
  simp only [isBreak, Bool.or_eq_false_iff, decide_eq_false_iff_not]
  exact ⟨h1, h2⟩

theorem isBreak_space_cons (p : Str) : isBreak (' ' :: p) = false := by
  refine isBreak_eq_false_of_ne _ ?_ ?_
  · rw [nlStr_eq]; intro h; injection h with h1 _; exact absurd h1 (by decide)
  · rw [paraStr_eq]; intro h; injection h with h1 _; exact absurd h1 (by decide)

theorem rebuild_append_break (ps : List Str) (b : Str) (hb : isBreak b = true) :
    rebuildConcatenated (ps ++ [b]) = rebuildConcatenated ps := by
  simp [rebuildConcatenated, List.filter_append, hb]

theorem rebuild_append_text (ps : List Str) (t : Str) (ht : isBreak t = false) :
    rebuildConcatenated (ps ++ [t]) = rebuildConcatenated ps ++ t := by
  simp [rebuildConcatenated, List.filter_append, ht]

theorem para_ne_nl : paraStr ≠ nlStr := by decide

theorem addPhrase_invariant (phrase : Str) (rt : Bool) (ts : TranscriptionStack)
    (h : stackInvariant ts) : stackInvariant (addPhrase phrase rt ts).1 := by
  unfold stackInvariant at h
  unfold addPhrase
  cases hc : processVoiceCommands phrase with
  | undoThatCmd =>
    unfold handleUndoCommand
    cases hL : ts.phrases.getLast? with
    | none => simp only [hL]; exact h
    | some removed => simp [stackInvariant]
  | undoWordsCmd n =>
    unfold handleUndoWordsCommand
    by_cases he : ts.phrases = []
    · simp only [if_pos he]; exact h
    · simp [he, stackInvariant]
  | stopCmd => exact h
  | phrase p =>
    by_cases h1 : p = nlStr
    · simp [h1, stackInvariant, rebuild_append_break _ _ isBreak_nl, h]
    · by_cases h2 : p = paraStr
      · simp [h1, h2, para_ne_nl, stackInvariant,
          rebuild_append_break _ _ isBreak_para, h]
      · by_cases h3 : ts.phrases.length > 0 && !(lastWasLineBreak ts)
        · simp [h1, h2, h3, stackInvariant,
            rebuild_append_text _ _ (isBreak_space_cons p), h]
        · simp [h1, h2, h3, stackInvariant,
            rebuild_append_text _ _ (isBreak_eq_false_of_ne p h1 h2), h]

theorem foldl_invariant (ops : List (Str × Bool)) :
    ∀ ts : TranscriptionStack, stackInvariant ts →
      stackInvariant (ops.foldl (fun ts op => (addPhrase op.1 op.2 ts).1) ts) := by
  induction ops with
  | nil => intro ts h; simpa using h
  | cons op rest ih => intro ts h; exact ih _ (addPhrase_invariant op.1 op.2 ts h)

/-- C1: starting from the empty stack, after any sequence of AddPhrase
operations (text, break commands, undo commands), the derived concatenated
string equals the concatenation, in order, of all stored phrase entries that
are not the break markers. -/
theorem c1_buffer_invariant (ops : List (Str × Bool)) : stackInvariant (runOps ops) :=
  foldl_invariant ops emptyStack (by decide)

/-- C3 counterexample: processing the stream ["hello world", "newline",
"this is a test", "undo last 2 words"] with real-time typing from an empty
buffer does NOT give the claimed on-screen text "hello world\nthis is a" nor
concatenated string "hello worldthis is a": removing the last 2 words of
"this is a test" leaves "this is". -/
theorem c3_counterexample :
    (runStream [("hello world").data, ("newline").data, ("this is a test").data,
        ("undo last 2 words").data] (initDG true) []).2 ≠
      ("hello world\nthis is a").data ∧
    (runStream [("hello world").data, ("newline").data, ("this is a test").data,
        ("undo last 2 words").data] (initDG true) []).1.stack.concatenated ≠
      ("hello worldthis is a").data := by decide

/-- C3 amended: the stream ["hello world", "newline", "this is a test",
"undo last 2 words"] with real-time typing yields on-screen text
"hello world\nthis is" and buffer concatenated string "hello worldthis is"
(break markers excluded from the concatenation). -/
theorem c3_amended :
    (runStream [("hello world").data, ("newline").data, ("this is a test").data,
        ("undo last 2 words").data] (initDG true) []).2 =
      ("hello world\nthis is").data ∧
    (runStream [("hello world").data, ("newline").data, ("this is a test").data,
        ("undo last 2 words").data] (initDG true) []).1.stack.concatenated =
      ("hello worldthis is").data := by decide

/-- C2: the claimed screen/buffer synchronisation fails when UndoWords walks
over trailing break-marker segments: after ["hello", "newline",
"undo last one word"], the newline was removed from the buffer without any
backspace being emitted, so the screen shows "h" while the buffer renders
empty. -/
theorem c2_undo_words_break_divergence :
    (runStream [("hello").data, ("newline").data, ("undo last one word").data]
        (initDG true) []).2 = ("h").data ∧
    renderStack (runStream [("hello").data, ("newline").data,
        ("undo last one word").data] (initDG true) []).1.stack = [] := by decide

/-- C7: after both typing strategies fail, `silentMode` is recorded, but a
subsequent `TypeText` call performs exactly the same non-empty sequence of
external attempts again — the flag is never consulted, so calls are not
skipped. -/
theorem c7_silent_mode_not_consulted :
    (typeText envAllFail tiXdoOnly ("hi").data ("a").data).1.silentMode = true ∧
    (typeText envAllFail (typeText envAllFail tiXdoOnly ("hi").data ("a").data).1
        ("hi").data ("a").data).2.acts =
      (typeText envAllFail tiXdoOnly ("hi").data ("a").data).2.acts ∧
    (typeText envAllFail tiXdoOnly ("hi").data ("a").data).2.acts ≠ [] := by decide

/-- C8 counterexample: when the original clipboard content is empty, the
clipboard round-trip does not restore it — the injected text is left on the
clipboard. -/
theorem c8_counterexample :
    (typeText envAllFail tiNoTools ("hi").data []).2.clipboard = ("hi").data ∧
    (typeText envAllFail tiNoTools ("hi").data []).2.clipboard ≠ ([] : Str) := by decide

theorem goDirect_none (env : InjEnv) (text : Str) (avail : Str → Bool)
    (hA : ∀ t, avail t = false) : ∀ l, goDirect env text avail l = (false, []) := by
  intro l
  induction l with
  | nil => rfl
  | cons t rest ih => simp [goDirect, hA t, ih]

theorem tryClipboardPaste_restores (env : InjEnv) (ti : TextInjector) (text clip : Str)
    (hC : clip ≠ []) : (tryClipboardPaste env ti text clip).clipboard = clip := by
  unfold tryClipboardPaste
  by_cases hw : env.clipWriteOk
  · simp [hw, hC]
  · simp [hw]

/-- C8 amended: whenever direct injection is unavailable or fails,
`TypeText` attempts the clipboard round-trip before any silent-mode entry
(the call performs exactly the direct attempts followed by the round-trip
actions, whose first external action is the clipboard write); if the
round-trip succeeds the injector does not enter silent mode; and the
original clipboard content is restored whenever it was non-empty (an empty
original is not restored — the injected text is left on the clipboard, per
the counterexample). -/
theorem c8_amended (env : InjEnv) (ti : TextInjector) (text clip : Str)
    (hD : (tryDirectTyping env ti text).1 = false) (hT : text ≠ []) :
    ((typeText env ti text clip).2.acts =
      (tryDirectTyping env ti text).2 ++ (tryClipboardPaste env ti text clip).acts) ∧
    (tryClipboardPaste env ti text clip).acts.head? = some (InjAct.clipWrite text) ∧
    (clip ≠ [] → (typeText env ti text clip).2.clipboard = clip) ∧
    ((tryClipboardPaste env ti text clip).ok = true →
      (typeText env ti text clip).1 = ti ∧ (typeText env ti text clip).2.ok = true) := by
  refine ⟨?_, ?_, ?_, ?_⟩
  · by_cases hok : (tryClipboardPaste env ti text clip).ok
    · simp [typeText, hT, hD, hok]
    · simp [typeText, hT, hD, hok]
  · unfold tryClipboardPaste
    by_cases hw : env.clipWriteOk
    · simp only [hw, Bool.not_true]
      split
      · next h => exact absurd h (by decide)
      · repeat' split
        all_goals rfl
    · simp [hw]
  · intro hC
    by_cases hok : (tryClipboardPaste env ti text clip).ok
    · simp [typeText, hT, hD, hok, tryClipboardPaste_restores env ti text clip hC]
    · simp [typeText, hT, hD, hok, tryClipboardPaste_restores env ti text clip hC]
  · intro hok
    simp [typeText, hT, hD, hok]

/-- C8 amended witness: xdotool is available but its invocation fails, so
direct injection fails; the clipboard round-trip is attempted and the
non-empty original clipboard is restored. -/
theorem c8_amended_witness :
    (tryDirectTyping envAllFail tiXdoOnly (("hi").data)).1 = false ∧
    (("hi").data : Str) ≠ [] ∧
    (((typeText envAllFail tiXdoOnly ("hi").data ("a").data).2.acts =
        (tryDirectTyping envAllFail tiXdoOnly ("hi").data).2 ++
          (tryClipboardPaste envAllFail tiXdoOnly ("hi").data ("a").data).acts) ∧
      (tryClipboardPaste envAllFail tiXdoOnly ("hi").data ("a").data).acts.head? =
        some (InjAct.clipWrite ("hi").data) ∧
      (("a").data ≠ ([] : Str) →
        (typeText envAllFail tiXdoOnly ("hi").data ("a").data).2.clipboard = ("a").data) ∧
      ((tryClipboardPaste envAllFail tiXdoOnly ("hi").data ("a").data).ok = true →
        (typeText envAllFail tiXdoOnly ("hi").data ("a").data).1 = tiXdoOnly ∧
        (typeText envAllFail tiXdoOnly ("hi").data ("a").data).2.ok = true)) :=
  ⟨by decide, by decide,
   c8_amended envAllFail tiXdoOnly ("hi").data ("a").data (by decide) (by decide)⟩

theorem dropWhile_dropWhile (p : Char → Bool) (l : Str) :
    (l.dropWhile p).dropWhile p = l.dropWhile p := by
  induction l with
  | nil => rfl
  | cons c cs ih =>
    by_cases h : p c
    · simp [List.dropWhile_cons, h, ih]
    · simp [List.dropWhile_cons, h]

theorem dropWhile_head_not (p : Char → Bool) (l : Str) (c : Char) (rest : Str)
    (h : l.dropWhile p = c :: rest) : p c = false := by
  induction l with
  | nil => simp at h
  | cons a as ih =>
    by_cases ha : p a
    · rw [List.dropWhile_cons_of_pos ha] at h; exact ih h
    · rw [List.dropWhile_cons_of_neg ha] at h
      injection h with h1 _
      subst h1
      exact Bool.eq_false_iff.mpr ha

theorem trimStr_prefix_dropWhile (s : Str) : trimStr s <+: s.dropWhile isWS := by
  unfold trimStr
  generalize s.dropWhile isWS = u
  obtain ⟨t, ht⟩ : u.reverse.dropWhile isWS <:+ u.reverse := List.dropWhile_suffix _
  refine ⟨t.reverse, ?_⟩
  rw [← List.reverse_append, ht, List.reverse_reverse]

theorem dropWhile_trimStr (s : Str) : (trimStr s).dropWhile isWS = trimStr s := by
  cases hT : trimStr s with
  | nil => rfl
  | cons c rest =>
    have hpre : trimStr s <+: s.dropWhile isWS := trimStr_prefix_dropWhile s
    rw [hT] at hpre
    obtain ⟨t, ht⟩ := hpre
    have hc : isWS c = false :=
      dropWhile_head_not isWS s c (rest ++ t) (by rw [← ht, List.cons_append])
    rw [List.dropWhile_cons_of_neg (by simp [hc])]

theorem trimStr_idem (s : Str) : trimStr (trimStr s) = trimStr s := by
  show (((trimStr s).dropWhile isWS).reverse.dropWhile isWS).reverse = trimStr s
  rw [dropWhile_trimStr]
  have h2 : (trimStr s).reverse = (s.dropWhile isWS).reverse.dropWhile isWS := by
    unfold trimStr; rw [List.reverse_reverse]
  rw [h2, dropWhile_dropWhile, ← h2, List.reverse_reverse]

/-- C6: any finalized transcript whose trimmed, lowercased form contains one
of the four stop phrases as a substring makes the message handler set the
stop-requested flag, emit no injector call, and leave the buffer (stack)
unchanged — regardless of any other command phrases or literal text in the
transcript. -/
theorem c6_stop_command (s : DGState) (t : Str) (h : isStopCommand t = true) :
    dgMessage t true s = ({ s with stopRequested := true }, []) := by
  have hstop : isStopCommand (trimStr t) = true := by
    unfold isStopCommand at h ⊢
    rw [trimStr_idem]; exact h
  have hne : trimStr t ≠ [] := by
    intro hnil
    unfold isStopCommand at h
    rw [hnil] at h
    exact absurd h (by decide)
  simp [dgMessage, hne, hstop]

/-- C6 witness: the transcript "okay let's end voice now" triggers stop and
leaves a non-empty buffer untouched. -/
theorem c6_stop_command_witness :
    isStopCommand (("okay let\x27s End Voice now").data) = true ∧
    dgMessage (("okay let\x27s End Voice now").data) true
        { stack := { phrases := [("hi").data], concatenated := ("hi").data,
                     lastSentence := ("hi").data },
          stopRequested := false, realTimeTyping := true } =
      ({ stack := { phrases := [("hi").data], concatenated := ("hi").data,
                    lastSentence := ("hi").data },
         stopRequested := true, realTimeTyping := true }, []) :=
  ⟨by decide,
   c6_stop_command
     { stack := { phrases := [("hi").data], concatenated := ("hi").data,
                  lastSentence := ("hi").data },
       stopRequested := false, realTimeTyping := true }
     (("okay let\x27s End Voice now").data) (by decide)⟩

theorem handleUndoCommand_concat (rt : Bool) (ps : List Str) (q co la : Str) :
    (handleUndoCommand rt
        { phrases := ps ++ [q], concatenated := co, lastSentence := la }).1 =
      { phrases := ps, concatenated := rebuildConcatenated ps, lastSentence := la } := by
  unfold handleUndoCommand
  simp [List.getLast?_concat, List.dropLast_concat]

theorem addPhrase_undoThat (rt : Bool) (ts : TranscriptionStack) :
    addPhrase kwUndoThat rt ts = handleUndoCommand rt ts := by
  simp only [addPhrase,
    show processVoiceCommands kwUndoThat = PVCResult.undoThatCmd from by decide]

theorem addPhrase_text (s : Str) (rt : Bool) (ts : TranscriptionStack)
    (hLit : processVoiceCommands s = PVCResult.phrase s)
    (h1 : s ≠ nlStr) (h2 : s ≠ paraStr) :
    addPhrase s rt ts =
      ({ phrases := ts.phrases ++
           [if decide (ts.phrases.length > 0) && !lastWasLineBreak ts then ' ' :: s else s],
         concatenated := ts.concatenated ++
           (if decide (ts.phrases.length > 0) && !lastWasLineBreak ts then ' ' :: s else s),
         lastSentence := s },
       if rt then
         [Instr.typeText
           (if decide (ts.phrases.length > 0) && !lastWasLineBreak ts then ' ' :: s else s)]
       else []) := by
  unfold addPhrase
  rw [hLit]
  simp only [if_neg h1, if_neg h2]

/-- C4: for any buffer satisfying the buffer invariant (every reachable
buffer does, by C1), appending a non-command, non-break transcript via
AddPhrase and then performing "undo that" restores the stored phrase
sequence and the concatenated string exactly. -/
theorem c4_undo_after_append (ts : TranscriptionStack) (s : Str) (rt rt' : Bool)
    (hInv : stackInvariant ts)
    (hLit : processVoiceCommands s = PVCResult.phrase s)
    (h1 : s ≠ nlStr) (h2 : s ≠ paraStr) :
    (addPhrase kwUndoThat rt' (addPhrase s rt ts).1).1.phrases = ts.phrases ∧
    (addPhrase kwUndoThat rt' (addPhrase s rt ts).1).1.concatenated = ts.concatenated := by
  rw [addPhrase_text s rt ts hLit h1 h2, addPhrase_undoThat, handleUndoCommand_concat]
  exact ⟨rfl, hInv.symm⟩

/-- C4 witness at a concrete input. -/
theorem c4_undo_after_append_witness :
    stackInvariant emptyStack ∧
    processVoiceCommands (("hello").data) = PVCResult.phrase (("hello").data) ∧
    (("hello").data : Str) ≠ nlStr ∧ (("hello").data : Str) ≠ paraStr ∧
    ((addPhrase kwUndoThat true (addPhrase ("hello").data true emptyStack).1).1.phrases =
        emptyStack.phrases ∧
      (addPhrase kwUndoThat true
          (addPhrase ("hello").data true emptyStack).1).1.concatenated =
        emptyStack.concatenated) :=
  ⟨by decide, by decide, by decide, by decide,
   c4_undo_after_append emptyStack ("hello").data true true (by decide) (by decide)
     (by decide) (by decide)⟩

/-- C9: appending a non-command text transcript when the buffer is non-empty
and the previous entry is not a break stores it with exactly one leading
space (so exactly one space separates it from the previous text); when the
buffer is empty or the previous entry is a line/paragraph break, it is stored
with no leading space. -/
theorem c9_spacing (ts : TranscriptionStack) (s : Str) (rt : Bool)
    (hLit : processVoiceCommands s = PVCResult.phrase s)
    (h1 : s ≠ nlStr) (h2 : s ≠ paraStr) :
    (ts.phrases ≠ [] → lastWasLineBreak ts = false →
      (addPhrase s rt ts).1.phrases = ts.phrases ++ [' ' :: s] ∧
      (addPhrase s rt ts).1.concatenated = ts.concatenated ++ ' ' :: s) ∧
    (ts.phrases = [] ∨ lastWasLineBreak ts = true →
      (addPhrase s rt ts).1.phrases = ts.phrases ++ [s] ∧
      (addPhrase s rt ts).1.concatenated = ts.concatenated ++ s) := by
  rw [addPhrase_text s rt ts hLit h1 h2]
  constructor
  · intro hne hlb
    have hcond : (decide (ts.phrases.length > 0) && !lastWasLineBreak ts) = true := by
      simp [hlb, List.length_pos, hne]
    simp [hcond]
  · intro hor
    have hcond : (decide (ts.phrases.length > 0) && !lastWasLineBreak ts) = false := by
      rcases hor with h | h
      · simp [h]
      · simp [h]
    simp [hcond]

/-- C9 witness: one space is inserted after existing text, none after a line
break or at the start. -/
theorem c9_spacing_witness :
    processVoiceCommands (("world").data) = PVCResult.phrase (("world").data) ∧
    (("world").data : Str) ≠ nlStr ∧ (("world").data : Str) ≠ paraStr ∧
    (helloStack.phrases ≠ [] → lastWasLineBreak helloStack = false →
      (addPhrase ("world").data true helloStack).1.phrases =
        helloStack.phrases ++ [' ' :: ("world").data] ∧
      (addPhrase ("world").data true helloStack).1.concatenated =
        helloStack.concatenated ++ ' ' :: ("world").data) :=
  ⟨by decide, by decide, by decide,
   (c9_spacing helloStack ("world").data true (by decide) (by decide) (by decide)).1⟩

theorem fieldsAux_ws_all (cs : Str) (acc : Str) (h : ∀ c ∈ cs, isWS c = true) :
    fieldsAux cs acc = if acc = [] then [] else [acc.reverse] := by
  induction cs generalizing acc with
  | nil => rfl
  | cons c cs ih =>
    have hc : isWS c = true := h c (List.mem_cons_self c cs)
    have hrest : ∀ x ∈ cs, isWS x = true := fun x hx => h x (List.mem_cons_of_mem c hx)
    by_cases ha : acc = []
    · simp [fieldsAux, hc, ha, ih [] hrest]
    · simp [fieldsAux, hc, ha, ih [] hrest]

theorem fieldsAux_append_ws (l w : Str) (hw : ∀ c ∈ w, isWS c = true) :
    ∀ acc, fieldsAux (l ++ w) acc = fieldsAux l acc := by
  induction l with
  | nil =>
    intro acc
    rw [List.nil_append, fieldsAux_ws_all w acc hw]
    rfl
  | cons c cs ih =>
    intro acc
    by_cases hc : isWS c
    · by_cases ha : acc = []
      · simp [fieldsAux, hc, ha, ih]
      · simp [fieldsAux, hc, ha, ih]
    · simp [fieldsAux, hc, ih]

theorem fields_dropWhile_ws (s : Str) : fields (s.dropWhile isWS) = fields s := by
  induction s with
  | nil => rfl
  | cons c cs ih =>
    by_cases hc : isWS c
    · rw [List.dropWhile_cons_of_pos hc]
      rw [ih]
      simp [fields, fieldsAux, hc]
    · rw [List.dropWhile_cons_of_neg hc]

theorem dropWhile_eq_trim_append (s : Str) :
    s.dropWhile isWS =
      trimStr s ++ ((s.dropWhile isWS).reverse.takeWhile isWS).reverse := by
  unfold trimStr
  generalize s.dropWhile isWS = u
  conv_lhs => rw [← List.reverse_reverse u,
    ← List.takeWhile_append_dropWhile isWS u.reverse]
  rw [List.reverse_append]

theorem fields_trimStr (s : Str) : fields (trimStr s) = fields s := by
  have h1 : fields (s.dropWhile isWS) = fields s := fields_dropWhile_ws s
  rw [← h1, dropWhile_eq_trim_append s]
  unfold fields
  rw [fieldsAux_append_ws]
  intro c hc
  rw [List.mem_reverse] at hc
  exact List.mem_takeWhile_imp hc

theorem fieldsAux_sound (cs : Str) :
    ∀ acc, (∀ c ∈ acc, isWS c = false) →
      ∀ w ∈ fieldsAux cs acc, w ≠ [] ∧ ∀ c ∈ w, isWS c = false := by
  induction cs with
  | nil =>
    intro acc hacc w hw
    by_cases ha : acc = []
    · simp [fieldsAux, ha] at hw
    · simp only [fieldsAux, if_neg ha, List.mem_singleton] at hw
      subst hw
      refine ⟨by simpa using ha, fun c hc => hacc c (List.mem_reverse.mp hc)⟩
  | cons c cs ih =>
    intro acc hacc w hw
    by_cases hc : isWS c
    · by_cases ha : acc = []
      · rw [show fieldsAux (c :: cs) acc = fieldsAux cs [] by
          simp [fieldsAux, hc, ha]] at hw
        exact ih [] (by simp) w hw
      · rw [show fieldsAux (c :: cs) acc = acc.reverse :: fieldsAux cs [] by
          simp [fieldsAux, hc, ha]] at hw
        rcases List.mem_cons.mp hw with h | h
        · subst h
          exact ⟨by simpa using ha, fun x hx => hacc x (List.mem_reverse.mp hx)⟩
        · exact ih [] (by simp) w h
    · rw [show fieldsAux (c :: cs) acc = fieldsAux cs (c :: acc) by
        simp [fieldsAux, hc]] at hw
      refine ih (c :: acc) ?_ w hw
      intro x hx
      rcases List.mem_cons.mp hx with h | h
      · subst h; exact Bool.eq_false_iff.mpr hc
      · exact hacc x h

theorem fields_sound (s : Str) :
    ∀ w ∈ fields s, w ≠ [] ∧ ∀ c ∈ w, isWS c = false :=
  fieldsAux_sound s [] (by simp)

theorem fieldsAux_word_append (r : Str) :
    ∀ (w acc : Str), (∀ c ∈ w, isWS c = false) →
      fieldsAux (w ++ r) acc = fieldsAux r (w.reverse ++ acc) := by
  intro w
  induction w with
  | nil => intro acc h; rfl
  | cons c w ih =>
    intro acc h
    have hc : isWS c = false := h c (List.mem_cons_self c w)
    rw [List.cons_append, show fieldsAux (c :: (w ++ r)) acc = fieldsAux (w ++ r) (c :: acc) by
      simp [fieldsAux, hc]]
    rw [ih (c :: acc) (fun x hx => h x (List.mem_cons_of_mem c hx))]
    simp

theorem fields_joinSpace : ∀ (l : List Str),
    (∀ w ∈ l, w ≠ [] ∧ ∀ c ∈ w, isWS c = false) → fields (joinSpace l) = l := by
  intro l
  induction l with
  | nil => intro h; rfl
  | cons w rest ih =>
    intro h
    have hw := h w (List.mem_cons_self w rest)
    cases rest with
    | nil =>
      have h2 := fieldsAux_word_append [] w [] hw.2
      simp only [List.append_nil] at h2
      show fields w = [w]
      unfold fields
      rw [h2]
      simp [fieldsAux, hw.1]
    | cons v rest2 =>
      have hrest : ∀ x ∈ v :: rest2, x ≠ [] ∧ ∀ c ∈ x, isWS c = false :=
        fun x hx => h x (List.mem_cons_of_mem w hx)
      show fields (w ++ ' ' :: joinSpace (v :: rest2)) = w :: v :: rest2
      unfold fields
      rw [fieldsAux_word_append _ w [] hw.2]
      simp only [List.append_nil]
      rw [show fieldsAux (' ' :: joinSpace (v :: rest2)) w.reverse =
          w.reverse.reverse :: fieldsAux (joinSpace (v :: rest2)) [] by
        simp [fieldsAux, isWS, hw.1]]
      rw [List.reverse_reverse]
      exact congrArg (w :: ·) (ih hrest)

theorem wordCountOf_remainingWordsOf (p : Str) (m : Nat)
    (hm : m ≤ (fields (trimStr p)).length) :
    wordCountOf (remainingWordsOf p m) = m := by
  have hwords : ∀ w ∈ (fields (trimStr p)).take m, w ≠ [] ∧ ∀ c ∈ w, isWS c = false :=
    fun w hw => fields_sound (trimStr p) w (List.take_subset _ _ hw)
  have hfj : fields (joinSpace ((fields (trimStr p)).take m)) =
      (fields (trimStr p)).take m := fields_joinSpace _ hwords
  unfold wordCountOf
  rw [fields_trimStr]
  simp only [remainingWordsOf]
  by_cases hsp : spaceLed p && !(spaceLed (joinSpace ((fields (trimStr p)).take m)))
  · rw [if_pos hsp]
    rw [show fields (' ' :: joinSpace ((fields (trimStr p)).take m)) =
        fields (joinSpace ((fields (trimStr p)).take m)) from by
      simp [fields, fieldsAux, isWS]]
    rw [hfj, List.length_take]
    omega
  · rw [if_neg hsp, hfj, List.length_take]
    omega

theorem totalWords_cons (p : Str) (ps : List Str) :
    totalWords (p :: ps) = wordCountOf p + totalWords ps := by
  simp [totalWords]

theorem wordCountOf_break (p : Str) (h : isBreak p = true) : wordCountOf p = 0 := by
  have hor : p = nlStr ∨ p = paraStr := by
    simpa [isBreak, decide_eq_true_eq] using h
  rcases hor with h | h <;> subst h <;> decide

theorem totalWords_reverse (ps : List Str) : totalWords ps.reverse = totalWords ps := by
  simp [totalWords, List.map_reverse, List.sum_reverse]

theorem undoWordsGo_totalWords (wc : Nat) :
    ∀ (revps : List Str) (wr ch : Nat),
      totalWords (undoWordsGo wc revps wr ch).1 =
        totalWords revps - min (wc - wr) (totalWords revps) := by
  intro revps
  induction revps with
  | nil => intro wr ch; simp [undoWordsGo, totalWords]
  | cons p rest ih =>
    intro wr ch
    by_cases h1 : wc ≤ wr
    · rw [show undoWordsGo wc (p :: rest) wr ch = (p :: rest, ch) by
        simp [undoWordsGo, h1]]
      have h0 : wc - wr = 0 := Nat.sub_eq_zero_of_le h1
      simp [h0]
    · by_cases hb : isBreak p
      · rw [show undoWordsGo wc (p :: rest) wr ch = undoWordsGo wc rest wr ch by
          simp [undoWordsGo, h1, hb]]
        rw [ih wr ch, totalWords_cons, wordCountOf_break p hb]
        simp
      · by_cases h2 : (fields (trimStr p)).length ≤ wc - wr
        · rw [show undoWordsGo wc (p :: rest) wr ch =
              undoWordsGo wc rest (wr + (fields (trimStr p)).length)
                (ch + p.length) by
            simp [undoWordsGo, h1, hb, h2]]
          rw [ih _ _, totalWords_cons]
          have hL : wordCountOf p = (fields (trimStr p)).length := rfl
          omega
        · have hlt : wc - wr < (fields (trimStr p)).length := Nat.lt_of_not_le h2
          have hwr : wr < wc := Nat.lt_of_not_le h1
          have hcond : ((fields (trimStr p)).take
              ((fields (trimStr p)).length - (wc - wr))).length > 0 := by
            rw [List.length_take]; omega
          rw [show undoWordsGo wc (p :: rest) wr ch =
              (remainingWordsOf p ((fields (trimStr p)).length - (wc - wr)) :: rest,
               ch + (p.length - (remainingWordsOf p
                 ((fields (trimStr p)).length - (wc - wr))).length)) by
            simp [undoWordsGo, h1, hb, h2, hcond]]
          rw [totalWords_cons, totalWords_cons,
            wordCountOf_remainingWordsOf p _ (by omega)]
          have hL : wordCountOf p = (fields (trimStr p)).length := rfl
          omega

theorem undoWordsGo_shape (wc : Nat) :
    ∀ (revps : List Str) (wr ch : Nat),
      (∃ j, j ≤ revps.length ∧ (undoWordsGo wc revps wr ch).1 = revps.drop j) ∨
      (∃ j q m, revps[j]? = some q ∧ 1 ≤ m ∧ m < wordCountOf q ∧
        (undoWordsGo wc revps wr ch).1 =
          remainingWordsOf q m :: revps.drop (j + 1)) := by
  intro revps
  induction revps with
  | nil => intro wr ch; exact Or.inl ⟨0, by simp, by simp [undoWordsGo]⟩
  | cons p rest ih =>
    intro wr ch
    by_cases h1 : wc ≤ wr
    · exact Or.inl ⟨0, by simp, by simp [undoWordsGo, h1]⟩
    · by_cases hb : isBreak p
      · rcases ih wr ch with ⟨j, hj, hres⟩ | ⟨j, q, m, hq, hm1, hm2, hres⟩
        · refine Or.inl ⟨j + 1, by simp only [List.length_cons]; omega, ?_⟩
          rw [show undoWordsGo wc (p :: rest) wr ch = undoWordsGo wc rest wr ch by
            simp [undoWordsGo, h1, hb], hres]
          rfl
        · refine Or.inr ⟨j + 1, q, m, by simpa using hq, hm1, hm2, ?_⟩
          rw [show undoWordsGo wc (p :: rest) wr ch = undoWordsGo wc rest wr ch by
            simp [undoWordsGo, h1, hb], hres]
          rfl
      · by_cases h2 : (fields (trimStr p)).length ≤ wc - wr
        · rcases ih (wr + (fields (trimStr p)).length) (ch + p.length) with
            ⟨j, hj, hres⟩ | ⟨j, q, m, hq, hm1, hm2, hres⟩
          · refine Or.inl ⟨j + 1, by simp only [List.length_cons]; omega, ?_⟩
            rw [show undoWordsGo wc (p :: rest) wr ch =
                undoWordsGo wc rest (wr + (fields (trimStr p)).length)
                  (ch + p.length) by
              simp [undoWordsGo, h1, hb, h2], hres]
            rfl
          · refine Or.inr ⟨j + 1, q, m, by simpa using hq, hm1, hm2, ?_⟩
            rw [show undoWordsGo wc (p :: rest) wr ch =
                undoWordsGo wc rest (wr + (fields (trimStr p)).length)
                  (ch + p.length) by
              simp [undoWordsGo, h1, hb, h2], hres]
            rfl
        · have hlt : wc - wr < (fields (trimStr p)).length := Nat.lt_of_not_le h2
          have hwr : wr < wc := Nat.lt_of_not_le h1
          have hcond : ((fields (trimStr p)).take
              ((fields (trimStr p)).length - (wc - wr))).length > 0 := by
            rw [List.length_take]; omega
          refine Or.inr ⟨0, p, (fields (trimStr p)).length - (wc - wr), by simp,
            by omega, ?_, ?_⟩
          · have hL : wordCountOf p = (fields (trimStr p)).length := rfl
            omega
          · rw [show undoWordsGo wc (p :: rest) wr ch =
                (remainingWordsOf p ((fields (trimStr p)).length - (wc - wr)) :: rest,
                 ch + (p.length - (remainingWordsOf p
                   ((fields (trimStr p)).length - (wc - wr))).length)) by
              simp [undoWordsGo, h1, hb, h2, hcond]]
            rfl

/-- C5: for n >= 1, UndoWords(n) on an empty buffer is a no-op; otherwise it
removes exactly min(n, total words in the buffer) words, counted
right-to-left with break markers counting zero words; the surviving phrase
list is a prefix of the original (fully consumed phrases removed entirely),
possibly extended with the partially consumed phrase replaced by its
remaining prefix words. -/
theorem c5_undo_words (ts : TranscriptionStack) (n : Nat) (rt : Bool) (hn : 1 ≤ n) :
    (ts.phrases = [] → handleUndoWordsCommand n rt ts = (ts, [])) ∧
    totalWords (handleUndoWordsCommand n rt ts).1.phrases =
      totalWords ts.phrases - min n (totalWords ts.phrases) ∧
    (∃ k, k ≤ ts.phrases.length ∧
      ((handleUndoWordsCommand n rt ts).1.phrases = ts.phrases.take k ∨
        ∃ q m, ts.phrases[k]? = some q ∧ 1 ≤ m ∧ m < wordCountOf q ∧
          (handleUndoWordsCommand n rt ts).1.phrases =
            ts.phrases.take k ++ [remainingWordsOf q m])) := by
  by_cases he : ts.phrases = []
  · refine ⟨fun _ => ?_, ?_, ?_⟩
    · unfold handleUndoWordsCommand; rw [if_pos he]
    · unfold handleUndoWordsCommand; rw [if_pos he]; simp [he, totalWords]
    · refine ⟨0, by simp, Or.inl ?_⟩
      unfold handleUndoWordsCommand; rw [if_pos he]; simpa using he
  · have hphr : (handleUndoWordsCommand n rt ts).1.phrases =
        (undoWordsGo n ts.phrases.reverse 0 0).1.reverse := by
      unfold handleUndoWordsCommand; rw [if_neg he]
    refine ⟨fun h => absurd h he, ?_, ?_⟩
    · rw [hphr, totalWords_reverse, undoWordsGo_totalWords, totalWords_reverse]
      simp
    · rcases undoWordsGo_shape n ts.phrases.reverse 0 0 with
        ⟨j, hj, hres⟩ | ⟨j, q, m, hq, hm1, hm2, hres⟩
      · refine ⟨ts.phrases.length - j, by omega, Or.inl ?_⟩
        rw [hphr, hres, List.drop_reverse, List.reverse_reverse]
      · have hjlt : j < ts.phrases.length := by
          have h1 := (List.getElem?_eq_some.mp hq).1
          simpa using h1
        have hq2 : ts.phrases[ts.phrases.length - 1 - j]? = some q := by
          rw [List.getElem?_reverse hjlt] at hq
          exact hq
        refine ⟨ts.phrases.length - 1 - j, by omega,
          Or.inr ⟨q, m, hq2, hm1, hm2, ?_⟩⟩
        rw [hphr, hres, List.reverse_cons, List.drop_reverse, List.reverse_reverse]
        have hk : ts.phrases.length - (j + 1) = ts.phrases.length - 1 - j := by omega
        rw [hk]

/-- C5 witness: removing 5 of the 6 words of ["hello world", "\n",
"this is a test"] leaves one word. -/
theorem c5_undo_words_witness :
    (c5Stack.phrases = [] → handleUndoWordsCommand 5 true c5Stack = (c5Stack, [])) ∧
    totalWords (handleUndoWordsCommand 5 true c5Stack).1.phrases =
      totalWords c5Stack.phrases - min 5 (totalWords c5Stack.phrases) ∧
    (∃ k, k ≤ c5Stack.phrases.length ∧
      ((handleUndoWordsCommand 5 true c5Stack).1.phrases = c5Stack.phrases.take k ∨
        ∃ q m, c5Stack.phrases[k]? = some q ∧ 1 ≤ m ∧ m < wordCountOf q ∧
          (handleUndoWordsCommand 5 true c5Stack).1.phrases =
            c5Stack.phrases.take k ++ [remainingWordsOf q m])) :=
  c5_undo_words c5Stack 5 true (by decide)

theorem joinSpace_cons_length (w : Str) (l : List Str) :
    (joinSpace (w :: l)).length =
      w.length + (if l = [] then 0 else 1 + (joinSpace l).length) := by
  cases l with
  | nil => simp [joinSpace]
  | cons v r => simp [joinSpace, List.length_append, List.length_cons]; omega

theorem joinSpace_take_length_le (l : List Str) (m : Nat) :
    (joinSpace (l.take m)).length ≤ (joinSpace l).length := by
  induction l generalizing m with
  | nil => simp
  | cons w rest ih =>
    cases m with
    | zero => simp [joinSpace]
    | succ m =>
      rw [List.take_succ_cons, joinSpace_cons_length, joinSpace_cons_length]
      by_cases hr : rest = []
      · subst hr; simp
      · by_cases ht : rest.take m = []
        · rw [if_pos ht, if_neg hr]
          omega
        · rw [if_neg ht, if_neg hr]
          have := ih m
          omega

theorem fieldsAux_joinSpace_length (cs : Str) :
    ∀ acc, (joinSpace (fieldsAux cs acc)).length ≤ cs.length + acc.length := by
  induction cs with
  | nil =>
    intro acc
    by_cases ha : acc = []
    · simp [fieldsAux, ha, joinSpace]
    · simp [fieldsAux, ha, joinSpace]
  | cons c cs ih =>
    intro acc
    by_cases hc : isWS c
    · by_cases ha : acc = []
      · subst ha
        rw [show fieldsAux (c :: cs) [] = fieldsAux cs [] by simp [fieldsAux, hc]]
        have h1 := ih []
        simp only [List.length_nil, List.length_cons] at h1 ⊢
        omega
      · rw [show fieldsAux (c :: cs) acc = acc.reverse :: fieldsAux cs [] by
          simp [fieldsAux, hc, ha]]
        rw [joinSpace_cons_length]
        have h1 := ih []
        simp only [List.length_nil] at h1
        by_cases hf : fieldsAux cs [] = []
        · rw [if_pos hf]
          simp only [List.length_reverse, List.length_cons]
          omega
        · rw [if_neg hf]
          simp only [List.length_reverse, List.length_cons]
          omega
    · rw [show fieldsAux (c :: cs) acc = fieldsAux cs (c :: acc) by simp [fieldsAux, hc]]
      have h1 := ih (c :: acc)
      simp only [List.length_cons] at h1 ⊢
      omega

theorem joinSpace_fields_length_le (cs : Str) :
    (joinSpace (fields cs)).length ≤ cs.length := by
  have h := fieldsAux_joinSpace_length cs []
  simpa using h

theorem remainingWordsOf_length_le (q : Str) (m : Nat) :
    (remainingWordsOf q m).length ≤ q.length := by
  unfold remainingWordsOf
  by_cases hsp : spaceLed q && !(spaceLed (joinSpace ((fields (trimStr q)).take m)))
  · rw [if_pos hsp]
    have h1 : spaceLed q = true := by
      have h0 := hsp
      simp only [Bool.and_eq_true] at h0
      exact h0.1
    obtain ⟨q2, rfl⟩ : ∃ q2, q = ' ' :: q2 := by
      cases q with
      | nil => simp [spaceLed] at h1
      | cons c q2 =>
        simp [spaceLed] at h1
        exact ⟨q2, by rw [h1]⟩
    have hfq : fields (trimStr (' ' :: q2)) = fields q2 := by
      rw [fields_trimStr]
      simp [fields, fieldsAux, isWS]
    rw [hfq]
    have hb : (joinSpace ((fields q2).take m)).length ≤ (joinSpace (fields q2)).length :=
      joinSpace_take_length_le _ m
    have hb2 : (joinSpace (fields q2)).length ≤ q2.length := joinSpace_fields_length_le q2
    simp only [List.length_cons]
    omega
  · rw [if_neg hsp]
    have hb : (joinSpace ((fields (trimStr q)).take m)).length ≤
        (joinSpace (fields (trimStr q))).length := joinSpace_take_length_le _ m
    have hb2 : (joinSpace (fields (trimStr q))).length ≤ (trimStr q).length :=
      joinSpace_fields_length_le _
    have hb3 : (trimStr q).length ≤ q.length := by
      have h4 := List.IsPrefix.length_le (trimStr_prefix_dropWhile q)
      have h5 : (q.dropWhile isWS).length ≤ q.length :=
        (List.dropWhile_suffix isWS).length_le
      omega
    omega

theorem rebuild_append (a b : List Str) :
    rebuildConcatenated (a ++ b) = rebuildConcatenated a ++ rebuildConcatenated b := by
  simp [rebuildConcatenated, List.filter_append]

theorem rebuild_dropLast_length_le (ps : List Str) :
    (rebuildConcatenated ps.dropLast).length ≤ (rebuildConcatenated ps).length := by
  rcases ps.eq_nil_or_concat with rfl | ⟨qs, a, rfl⟩
  · simp
  · rw [List.concat_eq_append, List.dropLast_concat]
    by_cases hb : isBreak a
    · rw [rebuild_append_break _ _ hb]
    · rw [rebuild_append_text _ _ (Bool.eq_false_iff.mpr hb)]
      simp

theorem handleUndoCommand_fst (rt : Bool) (ts : TranscriptionStack) :
    (handleUndoCommand rt ts).1 =
      if ts.phrases = [] then ts
      else { phrases := ts.phrases.dropLast,
             concatenated := rebuildConcatenated ts.phrases.dropLast,
             lastSentence := ts.lastSentence } := by
  unfold handleUndoCommand
  cases hL : ts.phrases.getLast? with
  | none =>
    have he : ts.phrases = [] := List.getLast?_eq_none_iff.mp hL
    simp [he]
  | some removed =>
    have he : ts.phrases ≠ [] := by
      intro h; rw [h] at hL; simp at hL
    simp [if_neg he]

theorem handleUndoWords_le (n : Nat) (rt : Bool) (ts : TranscriptionStack) :
    (handleUndoWordsCommand n rt ts).1.phrases.length ≤ ts.phrases.length ∧
    (rebuildConcatenated (handleUndoWordsCommand n rt ts).1.phrases).length ≤
      (rebuildConcatenated ts.phrases).length := by
  by_cases he : ts.phrases = []
  · unfold handleUndoWordsCommand
    rw [if_pos he]
    exact ⟨le_refl _, le_refl _⟩
  · have hphr : (handleUndoWordsCommand n rt ts).1.phrases =
        (undoWordsGo n ts.phrases.reverse 0 0).1.reverse := by
      unfold handleUndoWordsCommand; rw [if_neg he]
    rcases undoWordsGo_shape n ts.phrases.reverse 0 0 with
      ⟨j, hj, hres⟩ | ⟨j, q, m, hq, hm1, hm2, hres⟩
    · have hp : (handleUndoWordsCommand n rt ts).1.phrases =
          ts.phrases.take (ts.phrases.length - j) := by
        rw [hphr, hres, List.drop_reverse, List.reverse_reverse]
      rw [hp]
      constructor
      · rw [List.length_take]; omega
      · conv_rhs => rw [← List.take_append_drop (ts.phrases.length - j) ts.phrases]
        rw [rebuild_append]
        simp
    · have hjlt : j < ts.phrases.length := by
        have h1 := (List.getElem?_eq_some.mp hq).1
        simpa using h1
      have hq2 : ts.phrases[ts.phrases.length - 1 - j]? = some q := by
        rw [List.getElem?_reverse hjlt] at hq; exact hq
      have hp : (handleUndoWordsCommand n rt ts).1.phrases =
          ts.phrases.take (ts.phrases.length - 1 - j) ++ [remainingWordsOf q m] := by
        rw [hphr, hres, List.reverse_cons, List.drop_reverse, List.reverse_reverse]
        have hkk : ts.phrases.length - (j + 1) = ts.phrases.length - 1 - j := by omega
        rw [hkk]
      obtain ⟨hklt, hkval⟩ := List.getElem?_eq_some.mp hq2
      have hdecomp : ts.phrases =
          ts.phrases.take (ts.phrases.length - 1 - j) ++
            q :: ts.phrases.drop (ts.phrases.length - 1 - j + 1) := by
        conv_lhs => rw [← List.take_append_drop (ts.phrases.length - 1 - j) ts.phrases]
        rw [List.drop_eq_getElem_cons hklt, hkval]
      have hqnb : isBreak q = false := by
        by_cases hb : isBreak q
        · exfalso; have := wordCountOf_break q hb; omega
        · exact Bool.eq_false_iff.mpr hb
      constructor
      · rw [hp]
        simp only [List.length_append, List.length_take, List.length_singleton]
        omega
      · rw [hp, rebuild_append]
        conv_rhs => rw [hdecomp, rebuild_append]
        simp only [List.length_append]
        have hq1 : rebuildConcatenated [q] = q := by
          simp [rebuildConcatenated, hqnb]
        have hsingle : (rebuildConcatenated [remainingWordsOf q m]).length ≤ q.length := by
          by_cases hbr : isBreak (remainingWordsOf q m)
          · simp [rebuildConcatenated, hbr]
          · have h6 : rebuildConcatenated [remainingWordsOf q m] = remainingWordsOf q m := by
              simp [rebuildConcatenated, hbr]
            rw [h6]
            exact remainingWordsOf_length_le q m
        have hrhs : q.length ≤
            (rebuildConcatenated
              (q :: ts.phrases.drop (ts.phrases.length - 1 - j + 1))).length := by
          rw [show (q :: ts.phrases.drop (ts.phrases.length - 1 - j + 1)) =
              [q] ++ ts.phrases.drop (ts.phrases.length - 1 - j + 1) from rfl,
            rebuild_append, hq1, List.length_append]
          exact Nat.le_add_right _ _
        omega

/-- C10: when a finalized transcript contains a command phrase (undo-that,
undo-words, line-break or paragraph-break) as a substring, AddPhrase performs
only the command: the derived concatenated string never grows (no literal
words of the transcript are appended), the phrase list either gains exactly
one break marker or does not grow, and in the line-break case (e.g.
"please newline now") exactly one line-break segment is appended with the
concatenated string unchanged, the surrounding words being discarded. -/
theorem c10_command_only_effect (ts : TranscriptionStack) (t : Str) (rt : Bool)
    (hInv : stackInvariant ts)
    (hCmd : containsKeywords (toLowerStr (trimStr t)) [kwUndoThat] = true ∨
      isUndoWordsCommand (toLowerStr (trimStr t)) = true ∨
      containsKeywords (toLowerStr (trimStr t)) newlineKws = true ∨
      containsKeywords (toLowerStr (trimStr t)) paraKws = true) :
    (addPhrase t rt ts).1.concatenated.length ≤ ts.concatenated.length ∧
    ((addPhrase t rt ts).1.phrases = ts.phrases ++ [nlStr] ∨
      (addPhrase t rt ts).1.phrases = ts.phrases ++ [paraStr] ∨
      (addPhrase t rt ts).1.phrases.length ≤ ts.phrases.length) ∧
    (containsKeywords (toLowerStr (trimStr t)) [kwUndoThat] = false →
      isUndoWordsCommand (toLowerStr (trimStr t)) = false →
      containsKeywords (toLowerStr (trimStr t)) newlineKws = true →
      (addPhrase t rt ts).1.phrases = ts.phrases ++ [nlStr] ∧
      (addPhrase t rt ts).1.concatenated = ts.concatenated) := by
  unfold stackInvariant at hInv
  by_cases h1 : containsKeywords (toLowerStr (trimStr t)) [kwUndoThat]
  · have hpvc : processVoiceCommands t = PVCResult.undoThatCmd := by
      unfold processVoiceCommands
      rw [if_pos h1]
    have haddeq : addPhrase t rt ts = handleUndoCommand rt ts := by
      unfold addPhrase; rw [hpvc]
    rw [haddeq]
    refine ⟨?_, Or.inr (Or.inr ?_), fun hna _ _ => absurd h1 (by simp [hna])⟩
    · rw [handleUndoCommand_fst]
      by_cases he : ts.phrases = []
      · rw [if_pos he]
      · rw [if_neg he]
        rw [hInv]
        exact rebuild_dropLast_length_le ts.phrases
    · rw [handleUndoCommand_fst]
      by_cases he : ts.phrases = []
      · rw [if_pos he]
      · rw [if_neg he]
        simp only [List.length_dropLast]
        omega
  · by_cases h2 : isUndoWordsCommand (toLowerStr (trimStr t))
    · have hpvc : processVoiceCommands t =
          PVCResult.undoWordsCmd (extractWordCountFromUndo (toLowerStr (trimStr t))) := by
        unfold processVoiceCommands
        rw [if_neg h1, if_pos h2]
      have haddeq : addPhrase t rt ts =
          handleUndoWordsCommand (extractWordCountFromUndo (toLowerStr (trimStr t)))
            rt ts := by
        unfold addPhrase; rw [hpvc]
      rw [haddeq]
      have hle := handleUndoWords_le
        (extractWordCountFromUndo (toLowerStr (trimStr t))) rt ts
      refine ⟨?_, Or.inr (Or.inr hle.1), fun _ hna2 _ => absurd h2 (by simp [hna2])⟩
      by_cases he : ts.phrases = []
      · unfold handleUndoWordsCommand
        rw [if_pos he]
      · have hc2 : (handleUndoWordsCommand
            (extractWordCountFromUndo (toLowerStr (trimStr t))) rt ts).1.concatenated =
            rebuildConcatenated (handleUndoWordsCommand
              (extractWordCountFromUndo (toLowerStr (trimStr t))) rt ts).1.phrases := by
          unfold handleUndoWordsCommand; rw [if_neg he]
        rw [hc2, hInv]
        exact hle.2
    · by_cases h3 : containsKeywords (toLowerStr (trimStr t)) newlineKws
      · have hpvc : processVoiceCommands t = PVCResult.phrase nlStr := by
          unfold processVoiceCommands
          rw [if_neg h1, if_neg h2, if_pos h3]
        have haddeq : addPhrase t rt ts =
            ({ ts with phrases := ts.phrases ++ [nlStr] },
             if rt then [Instr.typeNewline] else []) := by
          unfold addPhrase
          rw [hpvc]
          simp
        rw [haddeq]
        exact ⟨le_refl _, Or.inl rfl, fun _ _ _ => ⟨rfl, rfl⟩⟩
      · by_cases h4 : containsKeywords (toLowerStr (trimStr t)) paraKws
        · have hpvc : processVoiceCommands t = PVCResult.phrase paraStr := by
            unfold processVoiceCommands
            rw [if_neg h1, if_neg h2, if_neg h3, if_pos h4]
          have haddeq : addPhrase t rt ts =
              ({ ts with phrases := ts.phrases ++ [paraStr] },
               if rt then [Instr.typeParagraphBreak] else []) := by
            unfold addPhrase
            rw [hpvc]
            simp [para_ne_nl]
          rw [haddeq]
          exact ⟨le_refl _, Or.inr (Or.inl rfl), fun _ _ h3x => absurd h3x h3⟩
        · rcases hCmd with h | h | h | h
          · exact absurd h h1
          · exact absurd h h2
          · exact absurd h h3
          · exact absurd h h4

/-- C10 witness: AddPhrase("please newline now") on the empty stack appends
exactly one line-break marker and discards "please" and "now". -/
theorem c10_command_only_effect_witness :
    stackInvariant emptyStack ∧
    containsKeywords (toLowerStr (trimStr (("please newline now").data)))
      newlineKws = true ∧
    ((addPhrase (("please newline now").data) true emptyStack).1.concatenated.length ≤
        emptyStack.concatenated.length ∧
      ((addPhrase (("please newline now").data) true emptyStack).1.phrases =
          emptyStack.phrases ++ [nlStr] ∨
        (addPhrase (("please newline now").data) true emptyStack).1.phrases =
          emptyStack.phrases ++ [paraStr] ∨
        (addPhrase (("please newline now").data) true emptyStack).1.phrases.length ≤
          emptyStack.phrases.length) ∧
      (containsKeywords (toLowerStr (trimStr (("please newline now").data)))
          [kwUndoThat] = false →
        isUndoWordsCommand (toLowerStr (trimStr (("please newline now").data))) = false →
        containsKeywords (toLowerStr (trimStr (("please newline now").data)))
          newlineKws = true →
        (addPhrase (("please newline now").data) true emptyStack).1.phrases =
          emptyStack.phrases ++ [nlStr] ∧
        (addPhrase (("please newline now").data) true emptyStack).1.concatenated =
          emptyStack.concatenated)) :=
  ⟨by decide, by decide,
   c10_command_only_effect emptyStack (("please newline now").data) true (by decide)
     (Or.inr (Or.inr (Or.inl (by decide))))⟩
